import Mathlib

/-!
Shallow embedding of `src/tarski/syntax/sorts.py`: the `Sort` / `Interval`
data model, the hierarchy operations (`parents`, `inclusion_closure`) and the
extend / cast / contains protocols, together with proofs of the behavioural
properties of the module.

Python machine values are modelled by `PyVal` (integers, floats as rationals,
strings); fallible Python code returns `Except PyErr _`; the mutable registry
(`Language`) is threaded explicitly as a `Registry` value; potentially
non-terminating worklist loops take explicit fuel and return `Option`, with
`none` meaning exhaustion.
-/

namespace Tarski

/-- Python values flowing through the sort engine: integer literals, float
literals (modelled as rational numbers), and strings. -/
inductive PyVal where
  | int (n : Int)
  | float (q : ℚ)
  | str (s : String)
  deriving DecidableEq

/-- Python exceptions surfaced by the embedded code. `unboundedIntervalError`
is modelled from the spec: the spec's error taxonomy names an
`UnboundedIntervalError` class, but the repository's errors module is outside
the embedded sources and the embedded code itself only ever produces the
other constructors. -/
inductive PyErr where
  | valueError
  | typeError
  | semanticError
  | languageError
  | unboundedIntervalError
  deriving DecidableEq

/-- Numeric view of a value: Python ints and floats compare through a common
numeric value; strings have none. -/
def toRatQ : PyVal → Option ℚ
  | .int n => some (n : ℚ)
  | .float q => some q
  | .str _ => none

/-- Python equality over the modelled values: numbers compare through their
numeric value (so 1 == 1.0 holds), strings compare as strings, and a string
never equals a number. -/
def pyEq (a b : PyVal) : Bool :=
  match a, b with
  | .str s, .str t => s == t
  | a, b =>
    match toRatQ a, toRatQ b with
    | some x, some y => x == y
    | _, _ => false

/-- Python ordering: defined between two numbers or two strings; comparing a
string with a number raises TypeError, modelled as `none`. -/
def pyLeOpt (a b : PyVal) : Option Bool :=
  match a, b with
  | .str s, .str t => some (decide (s ≤ t))
  | a, b =>
    match toRatQ a, toRatQ b with
    | some x, some y => some (decide (x ≤ y))
    | _, _ => none

/-- Membership of a value in a Python set of values, via Python equality. -/
def pyMem (v : PyVal) (dom : List PyVal) : Bool :=
  dom.any (fun w => pyEq v w)

/-- Addition of a value to a Python set of values. -/
def pyInsert (v : PyVal) (dom : List PyVal) : List PyVal :=
  if pyMem v dom then dom else v :: dom

/-- Encode functions appearing in the repository: `int_encode_fn` wraps
Python `int()`, `float_encode_fn` wraps Python `float()`. -/
inductive EncodeFn where
  | intFn
  | floatFn
  deriving DecidableEq

/-- Value of a list of decimal digit characters; `none` on a non-digit. -/
def digitsToNat : List Char → Option Nat
  | [] => some 0
  | c :: cs =>
    if c.isDigit then (digitsToNat cs).map (fun n => (c.toNat - 48) * 10 ^ cs.length + n)
    else none

/-- Parse of an integer literal as Python `int()` accepts it (optional sign
then digits; whitespace and underscores are not modelled). -/
def parseIntLit (s : String) : Option Int :=
  match s.toList with
  | [] => none
  | '-' :: rest =>
    match rest with
    | [] => none
    | _ => (digitsToNat rest).map (fun n => -(n : Int))
  | cs => (digitsToNat cs).map (fun n => (n : Int))

/-- Fractional part of a decimal literal. -/
def parseFracPart (cs : List Char) : Option ℚ :=
  (digitsToNat cs).map (fun n => (n : ℚ) / (10 : ℚ) ^ cs.length)

/-- Unsigned decimal literal: digits with an optional fractional part. -/
def parseUnsignedFloat (cs : List Char) : Option ℚ :=
  match cs.span (fun c => c != '.') with
  | (intPart, []) =>
    if intPart = [] then none else (digitsToNat intPart).map (fun n => (n : ℚ))
  | (intPart, _ :: frac) =>
    if intPart = [] && frac = [] then none
    else do
      let n ← digitsToNat intPart
      let f ← parseFracPart frac
      pure ((n : ℚ) + f)

/-- Parse of a decimal literal as Python `float()` accepts it (sign, digits,
optional fractional part; exponents and special values are not modelled). -/
def parseFloatLit (s : String) : Option ℚ :=
  match s.toList with
  | [] => none
  | '-' :: rest => (parseUnsignedFloat rest).map (fun q => -q)
  | cs => parseUnsignedFloat cs

/-- Truncation toward zero, the behaviour of Python `int()` on a float. -/
def pyTrunc (q : ℚ) : Int :=
  if 0 ≤ q then ⌊q⌋ else ⌈q⌉

/-- Semantics of the repository's encode functions on the modelled values:
`int()` keeps ints, truncates floats and parses integer strings; `float()`
embeds ints, keeps floats and parses decimal strings; a parse failure is a
Python ValueError. -/
def encodeVal : EncodeFn → PyVal → Except PyErr PyVal
  | .intFn, .int n => .ok (.int n)
  | .intFn, .float q => .ok (.int (pyTrunc q))
  | .intFn, .str s =>
    match parseIntLit s with
    | some n => .ok (.int n)
    | none => .error .valueError
  | .floatFn, .int n => .ok (.float (n : ℚ))
  | .floatFn, .float q => .ok (.float q)
  | .floatFn, .str s =>
    match parseFloatLit s with
    | some q => .ok (.float q)
    | none => .error .valueError

/-- State of an Interval sort: optional bounds, encode function, builtin
flag and the sort's name (the `_name` attribute set by `Sort.__init__`, also
exposed through the `name` property), mirroring `Interval.__init__`. -/
structure IntervalData where
  lower_bound : Option PyVal
  upper_bound : Option PyVal
  encode : EncodeFn
  builtin : Bool
  name : String
  deriving DecidableEq

/-- Interval construction: the name is required, bounds default to None and
no validation is performed on supplied bounds. -/
def intervalInit (name : String) (enc : EncodeFn)
    (lower_bound upper_bound : Option PyVal) : IntervalData :=
  ⟨lower_bound, upper_bound, enc, false, name⟩

/-- Interval.set_bounds: stores both bounds; no validation is performed. -/
def setBounds (I : IntervalData) (lower_bound upper_bound : Option PyVal) : IntervalData :=
  ⟨lower_bound, upper_bound, I.encode, I.builtin, I.name⟩

/-- Interval.is_within_bounds on explicit bounds: raises SemanticError when a
bound is unset, otherwise evaluates the chained comparison
`lower_bound <= x <= upper_bound` with Python short-circuiting. -/
def isWithinBoundsB (lower_bound upper_bound : Option PyVal) (x : PyVal) : Except PyErr Bool :=
  match lower_bound, upper_bound with
  | some lo, some hi =>
    match pyLeOpt lo x with
    | none => .error .typeError
    | some false => .ok false
    | some true =>
      match pyLeOpt x hi with
      | none => .error .typeError
      | some b => .ok b
  | _, _ => .error .semanticError

/-- Interval.is_within_bounds. -/
def isWithinBounds (I : IntervalData) (x : PyVal) : Except PyErr Bool :=
  isWithinBoundsB I.lower_bound I.upper_bound x

/-- Encode-then-bounds path of Interval.cast: encode may raise ValueError; a
value outside the bounds raises ValueError; an unset bound surfaces the
SemanticError of is_within_bounds. A success always returns a value. -/
def castEncodePath (I : IntervalData) (v : PyVal) : Except PyErr (Option PyVal) :=
  match encodeVal I.encode v with
  | .error e => .error e
  | .ok y =>
    match isWithinBounds I y with
    | .error e => .error e
    | .ok true => .ok (some y)
    | .ok false => .error .valueError

/-- Interval.cast on a raw value. A string argument is first tried as an
attribute lookup on the interval object; the attributes holding modelled
values are the two bounds (an unset bound is Python None, i.e. `ok none`)
and the sort's name, reachable both as the `_name` attribute and the `name`
property; any other string falls through to the encode path, the
AttributeError being swallowed (the remaining attributes — the language,
domain set, encode function and builtin flag — hold objects outside the
value universe and are never produced as cast results by the claims). -/
def intervalCastV (I : IntervalData) (v : PyVal) : Except PyErr (Option PyVal) :=
  match v with
  | .str s =>
    if s = "lower_bound" then .ok I.lower_bound
    else if s = "upper_bound" then .ok I.upper_bound
    else if s = "name" then .ok (some (.str I.name))
    else if s = "_name" then .ok (some (.str I.name))
    else castEncodePath I v
  | _ => castEncodePath I v

/-- Python arithmetic `u - l + 1` on two values: int with int stays int, a
float operand makes the result float, non-numeric operands raise
TypeError. -/
def pyCardArith (u l : PyVal) : Except PyErr PyVal :=
  match u, l with
  | .int a, .int b => .ok (.int (a - b + 1))
  | u, l =>
    match toRatQ u, toRatQ l with
    | some x, some y => .ok (.float (x - y + 1))
    | _, _ => .error .typeError

/-- Interval.cardinality: computes `upper_bound - lower_bound + 1` with no
guard; an unset bound is Python None and the subtraction raises TypeError. -/
def intervalCardinality (I : IntervalData) : Except PyErr PyVal :=
  match I.upper_bound, I.lower_bound with
  | some u, some l => pyCardArith u l
  | _, _ => .error .typeError

/-- build_the_naturals: `Interval('Natural', lang, int_encode_fn, 0, 2**32 - 1)`
with the builtin flag set. -/
def buildTheNaturals : IntervalData :=
  ⟨some (.int 0), some (.int (2 ^ 32 - 1)), .intFn, true, "Natural"⟩

/-- build_the_integers: bounds `-(2**31 - 1)` and `2**31 - 1`, int encode. -/
def buildTheIntegers : IntervalData :=
  ⟨some (.int (-(2 ^ 31 - 1))), some (.int (2 ^ 31 - 1)), .intFn, true, "Integer"⟩

/-- Magnitude of the float bounds of the Real builtin: 3.40282e+38. -/
def realBoundMagnitude : ℚ := 340282000000000000000000000000000000000

/-- build_the_reals: bounds `-3.40282e+38` and `3.40282e+38`, float encode. -/
def buildTheReals : IntervalData :=
  ⟨some (.float (-realBoundMagnitude)), some (.float realBoundMagnitude), .floatFn, true, "Real"⟩

/-- Bounds well-formedness from the spec's data model: either both bounds are
unset, or both are set with lower_bound less than or equal to upper_bound. -/
def boundsOk : Option PyVal → Option PyVal → Bool
  | none, none => true
  | some l, some h => pyLeOpt l h == some true
  | _, _ => false

/-- Bounds invariant of an interval. -/
def boundsInvariant (I : IntervalData) : Bool :=
  boundsOk I.lower_bound I.upper_bound

/-- Decidable equality of Except outcomes, to decide concrete runs. -/
instance instDecEqExcept {ε α : Type} [DecidableEq ε] [DecidableEq α] :
    DecidableEq (Except ε α) := fun a b =>
  match a, b with
  | .error e, .error f =>
    if h : e = f then .isTrue (by rw [h]) else .isFalse (by simp [h])
  | .ok x, .ok y =>
    if h : x = y then .isTrue (by rw [h]) else .isFalse (by simp [h])
  | .error _, .ok _ => .isFalse (by simp)
  | .ok _, .error _ => .isFalse (by simp)

/-! Helper lemmas about encode. -/

/-- Reflexivity of the Python ordering on numeric values. -/
lemma pyLeOpt_refl_num (v : PyVal) (x : ℚ) (h : toRatQ v = some x) :
    pyLeOpt v v = some true := by
  cases v <;> simp [toRatQ] at h <;> simp [pyLeOpt, toRatQ]

/-- C7: the Natural builtin is built with bounds [0, 2^32 - 1] and its
cardinality is 2^32; the Integer builtin is built with bounds
[-(2^31 - 1), 2^31 - 1] and its cardinality is 2^32 - 1, cardinality being
upper_bound - lower_bound + 1. -/
theorem builtin_cardinalities :
    buildTheNaturals.lower_bound = some (.int 0) ∧
    buildTheNaturals.upper_bound = some (.int (2 ^ 32 - 1)) ∧
    intervalCardinality buildTheNaturals = .ok (.int (2 ^ 32)) ∧
    buildTheIntegers.lower_bound = some (.int (-(2 ^ 31 - 1))) ∧
    buildTheIntegers.upper_bound = some (.int (2 ^ 31 - 1)) ∧
    intervalCardinality buildTheIntegers = .ok (.int (2 ^ 32 - 1)) := by
  refine ⟨rfl, rfl, ?_, rfl, rfl, ?_⟩ <;> decide

/-- C4 (amended): is_within_bounds on an Interval with an unset bound fails
with SemanticError (the claim's UnboundedIntervalError class is named by the
spec only and never appears in the code); after set_bounds(0, 10),
is_within_bounds(5) is true and is_within_bounds(11) is false. -/
theorem is_within_bounds_spec :
    (∀ I : IntervalData, ∀ x : PyVal,
      I.lower_bound = none ∨ I.upper_bound = none →
        isWithinBounds I x = .error .semanticError) ∧
    (∀ I : IntervalData,
      isWithinBounds (setBounds I (some (.int 0)) (some (.int 10))) (.int 5) = .ok true ∧
      isWithinBounds (setBounds I (some (.int 0)) (some (.int 10))) (.int 11) = .ok false) := by
  constructor
  · intro I x h
    rcases h with h | h
    · cases hu : I.upper_bound <;> simp [isWithinBounds, isWithinBoundsB, h, hu]
    · cases hl : I.lower_bound <;> simp [isWithinBounds, isWithinBoundsB, h, hl]
  · intro I
    exact ⟨rfl, rfl⟩

/-- Witness for is_within_bounds_spec at a concrete unbounded interval and a
concrete rebound interval. -/
theorem is_within_bounds_spec_witness :
    isWithinBounds (intervalInit "U" .intFn none none) (.int 5) = .error .semanticError ∧
    isWithinBounds (setBounds (intervalInit "U" .intFn none none) (some (.int 0)) (some (.int 10)))
      (.int 5) = .ok true :=
  ⟨is_within_bounds_spec.1 (intervalInit "U" .intFn none none) (.int 5) (Or.inl rfl),
   (is_within_bounds_spec.2 (intervalInit "U" .intFn none none)).1⟩

/-- C4 counterexample: on unset bounds the failure is the code's
SemanticError, not the UnboundedIntervalError named by the claim. -/
theorem is_within_bounds_counterexample :
    isWithinBounds (intervalInit "U" .intFn none none) (.int 5) = .error .semanticError ∧
    isWithinBounds (intervalInit "U" .intFn none none) (.int 5) ≠ .error .unboundedIntervalError := by
  decide

/-- C8 (amended): the builtin constructors establish the bounds invariant and
default construction leaves both bounds unset, which satisfies it; but
set_bounds and the constructor store their bound arguments without any
validation, so the resulting interval satisfies the invariant exactly when
the supplied bounds do. -/
theorem bounds_invariant_spec :
    boundsInvariant buildTheNaturals = true ∧
    boundsInvariant buildTheIntegers = true ∧
    boundsInvariant buildTheReals = true ∧
    (∀ name enc, boundsInvariant (intervalInit name enc none none) = true) ∧
    (∀ I lo hi, boundsInvariant (setBounds I lo hi) = boundsOk lo hi) ∧
    (∀ name enc lo hi, boundsInvariant (intervalInit name enc lo hi) = boundsOk lo hi) := by
  refine ⟨?_, ?_, ?_, fun name enc => rfl, fun I lo hi => rfl, fun name enc lo hi => rfl⟩ <;> decide

/-- C8 counterexample: set_bounds(10, 2) is accepted unvalidated and leaves
an interval with both bounds set and lower_bound greater than upper_bound,
so the invariant is not preserved by every operation. -/
theorem bounds_invariant_counterexample :
    boundsInvariant (setBounds buildTheNaturals (some (.int 10)) (some (.int 2))) = false := by
  decide

/-- C10: cardinality returns upper_bound - lower_bound + 1 when both bounds
are set integers; on an interval with an unset bound it fails with the
TypeError of unguarded None arithmetic, not with UnboundedIntervalError and
not with the SemanticError guard used by is_within_bounds. -/
theorem interval_cardinality_spec :
    (∀ I : IntervalData, I.lower_bound = none ∨ I.upper_bound = none →
      intervalCardinality I = .error .typeError ∧
      intervalCardinality I ≠ .error .unboundedIntervalError ∧
      intervalCardinality I ≠ .error .semanticError) ∧
    (∀ I : IntervalData, ∀ a b : Int,
      I.lower_bound = some (.int a) → I.upper_bound = some (.int b) →
      intervalCardinality I = .ok (.int (b - a + 1))) := by
  constructor
  · intro I h
    have hty : intervalCardinality I = .error .typeError := by
      rcases h with h | h
      · cases hu : I.upper_bound <;> simp [intervalCardinality, h, hu]
      · simp [intervalCardinality, h]
    refine ⟨hty, ?_, ?_⟩ <;> rw [hty] <;> decide
  · intro I a b hl hu
    simp [intervalCardinality, hl, hu, pyCardArith]

/-- Witness for interval_cardinality_spec: an interval with no bounds fails
with TypeError and the Natural builtin has the expected cardinality value. -/
theorem interval_cardinality_spec_witness :
    intervalCardinality (intervalInit "U" .intFn none none) = .error .typeError ∧
    intervalCardinality buildTheNaturals = .ok (.int ((2 ^ 32 - 1) - 0 + 1)) :=
  ⟨(interval_cardinality_spec.1 (intervalInit "U" .intFn none none) (Or.inl rfl)).1,
   interval_cardinality_spec.2 buildTheNaturals 0 (2 ^ 32 - 1) rfl rfl⟩

/-! The registry (Language slice), the sort hierarchy and its traversals. -/

/-- Stored state of a sort in the registry: a discrete Sort with its mutable
domain of canonical member values, or an Interval. -/
inductive SortData where
  | discrete (domain : List PyVal) (builtin : Bool)
  | interval (d : IntervalData)
  deriving DecidableEq

/-- Slice of the external Language consumed by sorts.py: the edge list
sort_hierarchy of (child name, parent name) pairs, and the name-indexed sort
store. Sorts hash and compare by name, so traversals are name-based. -/
structure Registry where
  sort_hierarchy : List (String × String)
  sorts : List (String × SortData)
  deriving DecidableEq

/-- Lookup of a sort by name (the registry's get_sort). -/
def getSort (reg : Registry) (name : String) : Option SortData :=
  (reg.sorts.find? (fun e => e.1 == name)).map (fun e => e.2)

/-- Parent names of a sort name: the edges whose left component matches, in
edge-list order (the parents function of sorts.py at name level; the sorts
that parents resolves through get_sort are looked up by these names when a
traversal needs their data). -/
def parentsE (edges : List (String × String)) (name : String) : List String :=
  (edges.filter (fun e => e.1 == name)).map (fun e => e.2)

/-- Parents relative to a registry. -/
def parentsOf (reg : Registry) (name : String) : List String :=
  parentsE reg.sort_hierarchy name

/-- One hierarchy step: b is a direct parent of a. -/
def parentStep (edges : List (String × String)) (a b : String) : Prop :=
  b ∈ parentsE edges a

/-- Reflexive-transitive ancestry along the parents relation. -/
def ReachE (edges : List (String × String)) : String → String → Prop :=
  Relation.ReflTransGen (parentStep edges)

/-- Acyclicity of the edge set, stated as the existence of a topological
rank; for a finite edge list this is exactly the DAG precondition the spec
assumes of the hierarchy. -/
def Acyclic (edges : List (String × String)) : Prop :=
  ∃ rank : String → Nat, ∀ a b, parentStep edges a b → rank b < rank a

/-- Sanity check: a ranked hierarchy has no directed cycle. -/
lemma Acyclic.no_cycle (edges : List (String × String)) (h : Acyclic edges) (s : String) :
    ¬ Relation.TransGen (parentStep edges) s s := by
  obtain ⟨rank, hrank⟩ := h
  intro hcyc
  have hlt : ∀ a b, Relation.TransGen (parentStep edges) a b → rank b < rank a := by
    intro a b hab
    induction hab with
    | single h1 => exact hrank _ _ h1
    | tail hab hbc ih => exact lt_trans (hrank _ _ hbc) ih
  exact lt_irrefl _ (hlt s s hcyc)

/-- A hierarchy step comes from an edge. -/
lemma parentStep_mem_edges (edges : List (String × String)) (a b : String)
    (h : parentStep edges a b) : (a, b) ∈ edges := by
  obtain ⟨e, he, hb⟩ := List.mem_map.mp h
  obtain ⟨hmem, heq⟩ := List.mem_filter.mp he
  rcases e with ⟨x, y⟩
  simp only at hb
  have hx : x = a := by simpa using heq
  subst hb
  subst hx
  exact hmem

/-- An edge gives a hierarchy step. -/
lemma parentStep_of_mem_edges (edges : List (String × String)) (a b : String)
    (h : (a, b) ∈ edges) : parentStep edges a b := by
  unfold parentStep parentsE
  exact List.mem_map.mpr ⟨(a, b), List.mem_filter.mpr ⟨h, by simp⟩, rfl⟩

/-- Addition of a name to a Python set of names. -/
def insertName (n : String) (l : List String) : List String :=
  if n ∈ l then l else n :: l

/-- Addition of all names of a list to a set of names. -/
def pushAll (ps : List String) (l : List String) : List String :=
  ps.foldl (fun acc q => insertName q acc) l

lemma mem_insertName (x n : String) (l : List String) :
    x ∈ insertName n l ↔ x = n ∨ x ∈ l := by
  by_cases h : n ∈ l
  · simp only [insertName, if_pos h]
    constructor
    · exact fun hx => Or.inr hx
    · rintro (rfl | hx)
      · exact h
      · exact hx
  · simp only [insertName, if_neg h, List.mem_cons]

lemma pushAll_cons (p : String) (ps l : List String) :
    pushAll (p :: ps) l = pushAll ps (insertName p l) := rfl

lemma mem_pushAll (x : String) (ps l : List String) :
    x ∈ pushAll ps l ↔ x ∈ ps ∨ x ∈ l := by
  induction ps generalizing l with
  | nil => simp [pushAll]
  | cons p ps ih =>
    rw [pushAll_cons, ih, mem_insertName, List.mem_cons]
    tauto

/-- Weight of a name under a topological rank: fuel a worklist may spend on
it, counting the re-insertions made by its descendants. -/
def nameWeight (E : Nat) (rank : String → Nat) (s : String) : Nat :=
  (E + 1) ^ rank s

/-- Total weight of a frontier. -/
def frontierMeasure (E : Nat) (rank : String → Nat) (l : List String) : Nat :=
  (l.map (nameWeight E rank)).sum

lemma frontierMeasure_cons (E : Nat) (rank : String → Nat) (s : String) (l : List String) :
    frontierMeasure E rank (s :: l) = nameWeight E rank s + frontierMeasure E rank l := by
  simp [frontierMeasure]

lemma frontierMeasure_insert_le (E : Nat) (rank : String → Nat) (n : String) (l : List String) :
    frontierMeasure E rank (insertName n l) ≤ nameWeight E rank n + frontierMeasure E rank l := by
  unfold insertName
  split
  · exact Nat.le_add_left _ _
  · simp [frontierMeasure]

lemma frontierMeasure_pushAll_le (E : Nat) (rank : String → Nat) (ps l : List String) :
    frontierMeasure E rank (pushAll ps l) ≤
      (ps.map (nameWeight E rank)).sum + frontierMeasure E rank l := by
  induction ps generalizing l with
  | nil => simp [pushAll]
  | cons p ps ih =>
    rw [pushAll_cons]
    calc frontierMeasure E rank (pushAll ps (insertName p l))
        ≤ (ps.map (nameWeight E rank)).sum + frontierMeasure E rank (insertName p l) :=
          ih (insertName p l)
      _ ≤ (ps.map (nameWeight E rank)).sum + (nameWeight E rank p + frontierMeasure E rank l) :=
          Nat.add_le_add_left (frontierMeasure_insert_le E rank p l) _
      _ = ((p :: ps).map (nameWeight E rank)).sum + frontierMeasure E rank l := by
          simp [List.map_cons]
          ring

lemma parentsE_length_le (edges : List (String × String)) (s : String) :
    (parentsE edges s).length ≤ edges.length := by
  unfold parentsE
  rw [List.length_map]
  exact List.length_filter_le _ _

/-- Key step of the termination measure: processing a name costs one unit of
fuel and the parents it pushes weigh strictly less than it did. -/
lemma parents_weight_lt (edges : List (String × String)) (rank : String → Nat)
    (hrank : ∀ a b, parentStep edges a b → rank b < rank a) (s : String) :
    ((parentsE edges s).map (nameWeight edges.length rank)).sum + 1 ≤
      nameWeight edges.length rank s := by
  by_cases hps : parentsE edges s = []
  · simpa [hps, nameWeight] using Nat.one_le_pow (rank s) (edges.length + 1) (Nat.succ_pos _)
  · obtain ⟨p, hp⟩ := List.exists_mem_of_ne_nil _ hps
    have hrs : 0 < rank s := Nat.lt_of_le_of_lt (Nat.zero_le _) (hrank s p hp)
    have hbound : ∀ x ∈ (parentsE edges s).map (nameWeight edges.length rank),
        x ≤ (edges.length + 1) ^ (rank s - 1) := by
      intro x hx
      obtain ⟨q, hq, rfl⟩ := List.mem_map.mp hx
      have hq' : rank q ≤ rank s - 1 := Nat.le_sub_one_of_lt (hrank s q hq)
      exact Nat.pow_le_pow_right (Nat.le_add_left 1 _) hq'
    have hsum : ((parentsE edges s).map (nameWeight edges.length rank)).sum ≤
        edges.length * (edges.length + 1) ^ (rank s - 1) := by
      have h1 := List.sum_le_card_nsmul _ _ hbound
      rw [smul_eq_mul] at h1
      calc ((parentsE edges s).map (nameWeight edges.length rank)).sum
          ≤ ((parentsE edges s).map (nameWeight edges.length rank)).length *
              (edges.length + 1) ^ (rank s - 1) := h1
        _ ≤ edges.length * (edges.length + 1) ^ (rank s - 1) := by
            apply Nat.mul_le_mul_right
            simpa using parentsE_length_le edges s
    have hone : 1 ≤ (edges.length + 1) ^ (rank s - 1) :=
      Nat.one_le_pow _ _ (Nat.succ_pos _)
    have hpow : nameWeight edges.length rank s =
        (edges.length + 1) ^ (rank s - 1) * (edges.length + 1) := by
      unfold nameWeight
      conv_lhs => rw [show rank s = (rank s - 1) + 1 from (Nat.succ_pred_eq_of_pos hrs).symm]
      rw [pow_succ]
    calc ((parentsE edges s).map (nameWeight edges.length rank)).sum + 1
        ≤ edges.length * (edges.length + 1) ^ (rank s - 1) + 1 :=
          Nat.add_le_add_right hsum 1
      _ ≤ edges.length * (edges.length + 1) ^ (rank s - 1) +
            (edges.length + 1) ^ (rank s - 1) := Nat.add_le_add_left hone _
      _ = (edges.length + 1) ^ (rank s - 1) * (edges.length + 1) := by ring
      _ = nameWeight edges.length rank s := hpow.symm

/-- Worklist of inclusion_closure: pop a sort from the frontier, add it to
the closure, push its parents onto the frontier (the source pops from a
Python set; the embedding pops the list head, Python set addition being the
deduplicating insertName/pushAll). Fuel bounds the number of iterations; an
empty frontier returns the closure regardless of remaining fuel, matching
the while-loop condition. -/
def inclusionClosureFuel (reg : Registry) : Nat → List String → List String → Option (List String)
  | _, closure, [] => some closure
  | 0, _, _ :: _ => none
  | fuel + 1, closure, s :: rest =>
    inclusionClosureFuel reg fuel (insertName s closure) (pushAll (parentsOf reg s) rest)

/-- On an acyclic hierarchy the closure worklist terminates within the
frontier's measure worth of fuel. -/
lemma inclusionClosureFuel_terminates (reg : Registry) (rank : String → Nat)
    (hrank : ∀ a b, parentStep reg.sort_hierarchy a b → rank b < rank a) :
    ∀ fuel closure frontier,
      frontierMeasure reg.sort_hierarchy.length rank frontier ≤ fuel →
      ∃ res, inclusionClosureFuel reg fuel closure frontier = some res := by
  intro fuel
  induction fuel with
  | zero =>
    intro closure frontier hm
    cases frontier with
    | nil => exact ⟨closure, rfl⟩
    | cons s rest =>
      exfalso
      rw [frontierMeasure_cons] at hm
      have h1 : 1 ≤ nameWeight reg.sort_hierarchy.length rank s :=
        Nat.one_le_pow _ _ (Nat.succ_pos _)
      omega
  | succ fuel ih =>
    intro closure frontier hm
    cases frontier with
    | nil => exact ⟨closure, rfl⟩
    | cons s rest =>
      apply ih
      have h1 := frontierMeasure_pushAll_le reg.sort_hierarchy.length rank
        (parentsE reg.sort_hierarchy s) rest
      have h2 := parents_weight_lt reg.sort_hierarchy rank hrank s
      rw [frontierMeasure_cons] at hm
      simp only [parentsOf]
      omega

/-- Elements of the closure and the frontier survive into the result of a
successful run. -/
lemma inclusionClosureFuel_subset (reg : Registry) :
    ∀ fuel closure frontier res,
      inclusionClosureFuel reg fuel closure frontier = some res →
      (∀ x, x ∈ closure → x ∈ res) ∧ (∀ x, x ∈ frontier → x ∈ res) := by
  intro fuel
  induction fuel with
  | zero =>
    intro closure frontier res h
    cases frontier with
    | nil =>
      simp only [inclusionClosureFuel, Option.some.injEq] at h
      subst h
      exact ⟨fun x hx => hx, fun x hx => absurd hx (List.not_mem_nil x)⟩
    | cons s rest => simp [inclusionClosureFuel] at h
  | succ fuel ih =>
    intro closure frontier res h
    cases frontier with
    | nil =>
      simp only [inclusionClosureFuel, Option.some.injEq] at h
      subst h
      exact ⟨fun x hx => hx, fun x hx => absurd hx (List.not_mem_nil x)⟩
    | cons s rest =>
      simp only [inclusionClosureFuel] at h
      obtain ⟨hc, hf⟩ := ih _ _ _ h
      constructor
      · intro x hx
        exact hc x ((mem_insertName x s closure).mpr (Or.inr hx))
      · intro x hx
        rcases List.mem_cons.mp hx with rfl | hx'
        · exact hc x ((mem_insertName x x closure).mpr (Or.inl rfl))
        · exact hf x ((mem_pushAll x _ rest).mpr (Or.inr hx'))

/-- Every element of the result is reachable from the closure or from some
frontier entry. -/
lemma inclusionClosureFuel_sound (reg : Registry) :
    ∀ fuel closure frontier res,
      inclusionClosureFuel reg fuel closure frontier = some res →
      ∀ x, x ∈ res →
        x ∈ closure ∨ ∃ y, y ∈ frontier ∧ ReachE reg.sort_hierarchy y x := by
  intro fuel
  induction fuel with
  | zero =>
    intro closure frontier res h x hx
    cases frontier with
    | nil =>
      simp only [inclusionClosureFuel, Option.some.injEq] at h
      subst h
      exact Or.inl hx
    | cons s rest => simp [inclusionClosureFuel] at h
  | succ fuel ih =>
    intro closure frontier res h x hx
    cases frontier with
    | nil =>
      simp only [inclusionClosureFuel, Option.some.injEq] at h
      subst h
      exact Or.inl hx
    | cons s rest =>
      simp only [inclusionClosureFuel] at h
      rcases ih _ _ _ h x hx with hc | ⟨y, hy, hreach⟩
      · rcases (mem_insertName x s closure).mp hc with rfl | hc'
        · exact Or.inr ⟨x, List.mem_cons_self _ _, Relation.ReflTransGen.refl⟩
        · exact Or.inl hc'
      · rcases (mem_pushAll y (parentsOf reg s) rest).mp hy with hp | hr
        · exact Or.inr ⟨s, List.mem_cons_self _ _, Relation.ReflTransGen.head hp hreach⟩
        · exact Or.inr ⟨y, List.mem_cons_of_mem _ hr, hreach⟩

/-- Every element of the result either was in the initial closure or has all
its parents in the result. -/
lemma inclusionClosureFuel_closed (reg : Registry) :
    ∀ fuel closure frontier res,
      inclusionClosureFuel reg fuel closure frontier = some res →
      ∀ x, x ∈ res →
        x ∈ closure ∨ ∀ p, parentStep reg.sort_hierarchy x p → p ∈ res := by
  intro fuel
  induction fuel with
  | zero =>
    intro closure frontier res h x hx
    cases frontier with
    | nil =>
      simp only [inclusionClosureFuel, Option.some.injEq] at h
      subst h
      exact Or.inl hx
    | cons s rest => simp [inclusionClosureFuel] at h
  | succ fuel ih =>
    intro closure frontier res h x hx
    cases frontier with
    | nil =>
      simp only [inclusionClosureFuel, Option.some.injEq] at h
      subst h
      exact Or.inl hx
    | cons s rest =>
      simp only [inclusionClosureFuel] at h
      rcases ih _ _ _ h x hx with hc | hpar
      · rcases (mem_insertName x s closure).mp hc with rfl | hc'
        · right
          intro p hp
          exact (inclusionClosureFuel_subset reg _ _ _ _ h).2 p
            ((mem_pushAll p _ rest).mpr (Or.inl hp))
        · exact Or.inl hc'
      · exact Or.inr hpar

/-- Characterization of inclusion_closure: a successful run from a singleton
frontier computes exactly the reflexive-transitive ancestry of the start. -/
lemma inclusionClosure_mem_iff (reg : Registry) (fuel : Nat) (s : String) (res : List String)
    (hrun : inclusionClosureFuel reg fuel [] [s] = some res) :
    ∀ x, x ∈ res ↔ ReachE reg.sort_hierarchy s x := by
  intro x
  constructor
  · intro hx
    rcases inclusionClosureFuel_sound reg fuel [] [s] res hrun x hx with hc | ⟨y, hy, hr⟩
    · exact absurd hc (List.not_mem_nil x)
    · rcases List.mem_singleton.mp hy with rfl
      exact hr
  · intro hr
    have hs : s ∈ res :=
      (inclusionClosureFuel_subset reg fuel [] [s] res hrun).2 s (List.mem_singleton.mpr rfl)
    induction hr with
    | refl => exact hs
    | tail hab hbc ihmem =>
      rcases inclusionClosureFuel_closed reg fuel [] [s] res hrun _ ihmem with hin | hstep
      · exact absurd hin (List.not_mem_nil _)
      · exact hstep _ hbc

/-- C5: for an acyclic hierarchy, inclusion_closure(S) terminates and yields
a finite set (a list of names) that contains S and whose membership is
exactly that of the singleton S unioned with the closures of the direct
parents of S. -/
theorem inclusion_closure_wellformed (reg : Registry) (s : String)
    (hA : Acyclic reg.sort_hierarchy) :
    ∃ fuel res, inclusionClosureFuel reg fuel [] [s] = some res ∧ s ∈ res ∧
      ∀ x, (x ∈ res ↔ (x = s ∨ ∃ p, p ∈ parentsOf reg s ∧
        ∃ fp resp, inclusionClosureFuel reg fp [] [p] = some resp ∧ x ∈ resp)) := by
  obtain ⟨rank, hrank⟩ := hA
  obtain ⟨res, hres⟩ := inclusionClosureFuel_terminates reg rank hrank
    (frontierMeasure reg.sort_hierarchy.length rank [s]) [] [s] (le_refl _)
  refine ⟨_, res, hres, ?_, ?_⟩
  · exact (inclusionClosureFuel_subset reg _ [] [s] res hres).2 s (List.mem_singleton.mpr rfl)
  · intro x
    rw [inclusionClosure_mem_iff reg _ s res hres x]
    unfold ReachE
    rw [Relation.ReflTransGen.cases_head_iff]
    constructor
    · rintro (rfl | ⟨p, hstep, hreach⟩)
      · exact Or.inl rfl
      · right
        refine ⟨p, hstep, ?_⟩
        obtain ⟨resp, hresp⟩ := inclusionClosureFuel_terminates reg rank hrank
          (frontierMeasure reg.sort_hierarchy.length rank [p]) [] [p] (le_refl _)
        exact ⟨_, resp, hresp, (inclusionClosure_mem_iff reg _ p resp hresp x).mpr hreach⟩
    · rintro (rfl | ⟨p, hp, fp, resp, hresp, hx⟩)
      · exact Or.inl rfl
      · exact Or.inr ⟨p, hp, (inclusionClosure_mem_iff reg fp p resp hresp x).mp hx⟩

/-- Concrete two-sort registry: sort s with single parent t, both discrete. -/
def regChain : Registry :=
  ⟨[("s", "t")], [("s", .discrete [] false), ("t", .discrete [] false)]⟩

/-- Witness for inclusion_closure_wellformed on the concrete acyclic
two-sort chain. -/
theorem inclusion_closure_wellformed_witness :
    ∃ fuel res, inclusionClosureFuel regChain fuel [] ["s"] = some res ∧ "s" ∈ res ∧
      ∀ x, (x ∈ res ↔ (x = "s" ∨ ∃ p, p ∈ parentsOf regChain "s" ∧
        ∃ fp resp, inclusionClosureFuel regChain fp [] [p] = some resp ∧ x ∈ resp)) :=
  inclusion_closure_wellformed regChain "s"
    ⟨fun n => if n = "s" then 1 else 0, by
      intro a b h
      have hm := parentStep_mem_edges _ _ _ h
      have he : (a, b) = ("s", "t") := by simpa [regChain] using hm
      have ha : a = "s" := congrArg Prod.fst he
      have hb : b = "t" := congrArg Prod.snd he
      subst ha
      subst hb
      decide⟩

/-! Sort.extend and upward domain propagation. -/

/-- Argument of contains and cast: a raw value, or a wrapped constant
carrying its canonical symbol (the dual value representation). -/
inductive Arg where
  | raw (v : PyVal)
  | constantSym (symbol : PyVal)
  deriving DecidableEq

/-- Resolution of the dual representation in Sort.contains and Sort.cast:
try the symbol attribute, fall back to the raw value. -/
def unwrapArg : Arg → PyVal
  | .raw v => v
  | .constantSym s => s

/-- Sort.contains of a discrete sort: membership of the canonical form in
the domain. A name not registered as a discrete sort has no such method; the
embedding totalizes with false there. -/
def sortContains (reg : Registry) (name : String) (x : Arg) : Bool :=
  match getSort reg name with
  | some (.discrete dom _) => pyMem (unwrapArg x) dom
  | _ => false

/-- Domain update of one stored sort: the set add of Sort.extend; an
interval carries no discrete domain. -/
def addSym (d : SortData) (sym : PyVal) : SortData :=
  match d with
  | .discrete dom b => .discrete (pyInsert sym dom) b
  | .interval i => .interval i

/-- In-place addition of a constant's symbol to the named sort's domain. -/
def addToDomain (reg : Registry) (name : String) (sym : PyVal) : Registry :=
  ⟨reg.sort_hierarchy,
   reg.sorts.map (fun e => if e.1 == name then (e.1, addSym e.2 sym) else e)⟩

/-- Sort.extend with the dynamic dispatch of the source: on an Interval the
method is pass (state unchanged); on a discrete Sort the symbol is added to
the domain and extend recurses into each parent in order. Fuel bounds the
recursion depth (the source recursion diverges on a cyclic hierarchy); a
failing sort lookup also yields none. -/
def extendFuel : Nat → Registry → String → PyVal → Option Registry
  | 0, _, _, _ => none
  | fuel + 1, reg, name, sym =>
    match getSort reg name with
    | none => none
    | some (.interval _) => some reg
    | some (.discrete _ _) =>
      (parentsOf (addToDomain reg name sym) name).foldlM
        (fun r p => extendFuel fuel r p sym) (addToDomain reg name sym)

lemma pyEq_refl (v : PyVal) : pyEq v v = true := by
  cases v <;> simp [pyEq, toRatQ]

lemma pyMem_insert_self (sym : PyVal) (dom : List PyVal) :
    pyMem sym (pyInsert sym dom) = true := by
  unfold pyInsert
  split
  case isTrue h => exact h
  case isFalse h => simp [pyMem, List.any_cons, pyEq_refl sym]

lemma pyMem_insert_mono (v sym : PyVal) (dom : List PyVal) (h : pyMem v dom = true) :
    pyMem v (pyInsert sym dom) = true := by
  unfold pyInsert
  split
  · exact h
  · simp only [pyMem, List.any_cons] at h ⊢
    simp [h]

/-- Growth relation on stored sorts: a discrete domain may gain members, an
interval is unchanged, presence and kind are preserved. -/
def sortLe : Option SortData → Option SortData → Prop
  | none, none => True
  | some (.discrete dom b), some (.discrete dom2 b2) =>
      b = b2 ∧ ∀ v, pyMem v dom = true → pyMem v dom2 = true
  | some (.interval d), some (.interval d2) => d = d2
  | _, _ => False

lemma sortLe_refl (o : Option SortData) : sortLe o o := by
  rcases o with _ | (⟨dom, b⟩ | i) <;> simp [sortLe]

lemma sortLe_trans (a b c : Option SortData) (h1 : sortLe a b) (h2 : sortLe b c) :
    sortLe a c := by
  rcases a with _ | (⟨da, ba⟩ | ia) <;> rcases b with _ | (⟨db, bb⟩ | ib) <;>
    rcases c with _ | (⟨dc, bc2⟩ | ic) <;> simp_all [sortLe]

/-- Extension order between registries: identical edges, pointwise sort
growth. Sort.extend only ever grows discrete domains. -/
def DomLe (reg reg2 : Registry) : Prop :=
  reg2.sort_hierarchy = reg.sort_hierarchy ∧ ∀ m, sortLe (getSort reg m) (getSort reg2 m)

lemma DomLe_refl (reg : Registry) : DomLe reg reg :=
  ⟨rfl, fun m => sortLe_refl (getSort reg m)⟩

lemma DomLe_trans {a b c : Registry} (h1 : DomLe a b) (h2 : DomLe b c) : DomLe a c :=
  ⟨h2.1.trans h1.1, fun m => sortLe_trans _ _ _ (h1.2 m) (h2.2 m)⟩

lemma find_map_key (l : List (String × SortData)) (g : SortData → SortData) (key m : String) :
    (l.map (fun e => if e.1 == key then (e.1, g e.2) else e)).find? (fun e => e.1 == m) =
      (l.find? (fun e => e.1 == m)).map (fun e => if e.1 == key then (e.1, g e.2) else e) := by
  have hpred : ((fun e : String × SortData => e.1 == m) ∘
      (fun e : String × SortData => if e.1 == key then (e.1, g e.2) else e)) =
      (fun e : String × SortData => e.1 == m) := by
    funext e
    rcases e with ⟨n, d⟩
    by_cases h : (n == key) = true <;> simp [Function.comp, h]
  rw [List.find?_map, hpred]

lemma getSort_addToDomain (reg : Registry) (name : String) (sym : PyVal) (m : String) :
    getSort (addToDomain reg name sym) m =
      (getSort reg m).map (fun d => if m == name then addSym d sym else d) := by
  unfold getSort addToDomain
  simp only []
  rw [find_map_key reg.sorts (fun d => addSym d sym) name m]
  cases hf : reg.sorts.find? (fun e => e.1 == m) with
  | none => rfl
  | some e =>
    rcases e with ⟨n, d⟩
    have hn : n = m := by simpa using List.find?_some hf
    subst hn
    by_cases h : n = name
    · simp [h]
    · simp [h]

lemma DomLe_addToDomain (reg : Registry) (name : String) (sym : PyVal) :
    DomLe reg (addToDomain reg name sym) := by
  refine ⟨rfl, ?_⟩
  intro m
  rw [getSort_addToDomain]
  cases h : getSort reg m with
  | none => simp [sortLe]
  | some d =>
    simp only [Option.map_some']
    by_cases hm : (m == name) = true
    · simp only [if_pos hm]
      rcases d with ⟨dom, b⟩ | i
      · exact ⟨rfl, fun v hv => pyMem_insert_mono v sym dom hv⟩
      · simp [sortLe, addSym]
    · simp only [if_neg hm]
      exact sortLe_refl _

/-- Hypothesis that a sort and all of its ancestors are registered discrete
sorts (no Interval anywhere in its inclusion closure). -/
def AllAncDiscrete (reg : Registry) (s : String) : Prop :=
  ∀ p, ReachE reg.sort_hierarchy s p → ∃ dom b, getSort reg p = some (.discrete dom b)

lemma AllAncDiscrete_domLe (reg reg2 : Registry) (h : DomLe reg reg2) (s : String)
    (ha : AllAncDiscrete reg s) : AllAncDiscrete reg2 s := by
  intro p hp
  have hp' : ReachE reg.sort_hierarchy s p := by rw [h.1] at hp; exact hp
  obtain ⟨dom, b, hg⟩ := ha p hp'
  have hs := h.2 p
  rw [hg] at hs
  cases h2 : getSort reg2 p with
  | none => rw [h2] at hs; exact absurd hs (by simp [sortLe])
  | some d2 =>
    rw [h2] at hs
    rcases d2 with ⟨dom2, b2⟩ | i2
    · exact ⟨dom2, b2, rfl⟩
    · exact absurd hs (by simp [sortLe])

lemma sortContains_mono (reg reg2 : Registry) (h : DomLe reg reg2) (name : String) (x : Arg)
    (hc : sortContains reg name x = true) : sortContains reg2 name x = true := by
  have hs := h.2 name
  unfold sortContains at hc ⊢
  cases h1 : getSort reg name with
  | none => rw [h1] at hc; simp at hc
  | some d =>
    rw [h1] at hs
    rw [h1] at hc
    rcases d with ⟨dom, b⟩ | i
    · cases h2 : getSort reg2 name with
      | none => rw [h2] at hs; exact absurd hs (by simp [sortLe])
      | some d2 =>
        rw [h2] at hs
        rcases d2 with ⟨dom2, b2⟩ | i2
        · exact hs.2 _ hc
        · exact absurd hs (by simp [sortLe])
    · simp at hc

/-- Registry growth along the parent fold of Sort.extend, given growth of
each individual recursive call. -/
lemma extendAllFold_domLe (fuel : Nat) (sym : PyVal)
    (IH : ∀ reg name reg2, extendFuel fuel reg name sym = some reg2 → DomLe reg reg2) :
    ∀ (ps : List String) (reg reg2 : Registry),
      ps.foldlM (fun r p => extendFuel fuel r p sym) reg = some reg2 → DomLe reg reg2 := by
  intro ps
  induction ps with
  | nil =>
    intro reg reg2 h
    simp only [List.foldlM_nil] at h
    injection h with h
    subst h
    exact DomLe_refl reg
  | cons p ps ih =>
    intro reg reg2 h
    simp only [List.foldlM_cons] at h
    cases he : extendFuel fuel reg p sym with
    | none => rw [he] at h; simp at h
    | some regm =>
      rw [he] at h
      simp only [Option.bind_eq_bind, Option.some_bind] at h
      exact DomLe_trans (IH _ _ _ he) (ih _ _ h)

/-- Sort.extend only grows the registry. -/
lemma extendFuel_domLe : ∀ fuel reg name sym reg2,
    extendFuel fuel reg name sym = some reg2 → DomLe reg reg2 := by
  intro fuel
  induction fuel with
  | zero => intro reg name sym reg2 h; simp [extendFuel] at h
  | succ fuel ih =>
    intro reg name sym reg2 h
    simp only [extendFuel] at h
    cases hg : getSort reg name with
    | none => rw [hg] at h; simp at h
    | some d =>
      rw [hg] at h
      rcases d with ⟨dom, b⟩ | i
      · simp only at h
        exact DomLe_trans (DomLe_addToDomain reg name sym)
          (extendAllFold_domLe fuel sym (fun r n r2 hh => ih r n sym r2 hh) _ _ _ h)
      · simp only at h
        injection h with h
        subst h
        exact DomLe_refl _

/-- Propagation along the parent fold of Sort.extend, given the recursive
behaviour of each call. -/
lemma extendAllFold_spec (rank : String → Nat) (sym : PyVal) (fuel : Nat)
    (IH : ∀ reg s, (∀ a b, parentStep reg.sort_hierarchy a b → rank b < rank a) →
      AllAncDiscrete reg s → rank s < fuel →
      ∃ reg2, extendFuel fuel reg s sym = some reg2 ∧ DomLe reg reg2 ∧
        ∀ p, ReachE reg.sort_hierarchy s p → sortContains reg2 p (.constantSym sym) = true) :
    ∀ (ps : List String) (reg : Registry),
      (∀ a b, parentStep reg.sort_hierarchy a b → rank b < rank a) →
      (∀ p, p ∈ ps → AllAncDiscrete reg p ∧ rank p < fuel) →
      ∃ reg2, ps.foldlM (fun r p => extendFuel fuel r p sym) reg = some reg2 ∧
        DomLe reg reg2 ∧
        ∀ p, p ∈ ps → ∀ q, ReachE reg.sort_hierarchy p q →
          sortContains reg2 q (.constantSym sym) = true := by
  intro ps
  induction ps with
  | nil =>
    intro reg hrank hps
    exact ⟨reg, by simp, DomLe_refl reg, fun p hp => absurd hp (List.not_mem_nil p)⟩
  | cons p ps ih =>
    intro reg hrank hps
    obtain ⟨hanc, hrp⟩ := hps p (List.mem_cons_self _ _)
    obtain ⟨regm, hm, hle1, hprop1⟩ := IH reg p hrank hanc hrp
    have hedg : regm.sort_hierarchy = reg.sort_hierarchy := hle1.1
    have hrank2 : ∀ a b, parentStep regm.sort_hierarchy a b → rank b < rank a := by
      rw [hedg]
      exact hrank
    have hps2 : ∀ q, q ∈ ps → AllAncDiscrete regm q ∧ rank q < fuel := by
      intro q hq
      obtain ⟨ha, hr⟩ := hps q (List.mem_cons_of_mem _ hq)
      exact ⟨AllAncDiscrete_domLe _ _ hle1 q ha, hr⟩
    obtain ⟨reg2, h2, hle2, hprop2⟩ := ih regm hrank2 hps2
    refine ⟨reg2, ?_, DomLe_trans hle1 hle2, ?_⟩
    · simp only [List.foldlM_cons, hm, Option.bind_eq_bind, Option.some_bind]
      exact h2
    · intro x hx q hq
      rcases List.mem_cons.mp hx with rfl | hx'
      · exact sortContains_mono regm reg2 hle2 q _ (hprop1 q hq)
      · have hq' : ReachE regm.sort_hierarchy x q := by rw [hedg]; exact hq
        exact hprop2 x hx' q hq'

/-- Main propagation lemma of Sort.extend: on a ranked (acyclic) hierarchy
whose reachable sorts are all discrete, extend succeeds given fuel above the
start's rank, the registry only grows, and the symbol lands in the domain of
every sort reachable from the start. -/
lemma extendFuel_spec (rank : String → Nat) (sym : PyVal) :
    ∀ fuel reg s,
      (∀ a b, parentStep reg.sort_hierarchy a b → rank b < rank a) →
      AllAncDiscrete reg s →
      rank s < fuel →
      ∃ reg2, extendFuel fuel reg s sym = some reg2 ∧ DomLe reg reg2 ∧
        ∀ p, ReachE reg.sort_hierarchy s p → sortContains reg2 p (.constantSym sym) = true := by
  intro fuel
  induction fuel with
  | zero =>
    intro reg s _ _ hr
    omega
  | succ fuel ih =>
    intro reg s hrank hanc hr
    obtain ⟨dom, b, hs⟩ := hanc s Relation.ReflTransGen.refl
    have hreg1 := DomLe_addToDomain reg s sym
    have hanc1 : AllAncDiscrete (addToDomain reg s sym) s :=
      AllAncDiscrete_domLe _ _ hreg1 s hanc
    have hrank1 : ∀ a b, parentStep (addToDomain reg s sym).sort_hierarchy a b →
        rank b < rank a := hrank
    have hps : ∀ p, p ∈ parentsOf (addToDomain reg s sym) s →
        AllAncDiscrete (addToDomain reg s sym) p ∧ rank p < fuel := by
      intro p hp
      have hstep : parentStep reg.sort_hierarchy s p := hp
      constructor
      · intro q hq
        exact hanc1 q (Relation.ReflTransGen.head hstep hq)
      · exact Nat.lt_of_lt_of_le (hrank s p hstep) (Nat.lt_succ_iff.mp hr)
    obtain ⟨reg2, hfold, hle, hprop⟩ := extendAllFold_spec rank sym fuel ih
      (parentsOf (addToDomain reg s sym) s) (addToDomain reg s sym) hrank1 hps
    refine ⟨reg2, ?_, DomLe_trans hreg1 hle, ?_⟩
    · simp only [extendFuel, hs]
      exact hfold
    · intro p hp
      rcases Relation.ReflTransGen.cases_head hp with rfl | ⟨q, hstep, hreach⟩
      · have hc1 : sortContains (addToDomain reg s sym) s (.constantSym sym) = true := by
          unfold sortContains
          rw [getSort_addToDomain, hs]
          simp [addSym, unwrapArg, pyMem_insert_self]
        exact sortContains_mono _ reg2 hle s _ hc1
      · have hq : q ∈ parentsOf (addToDomain reg s sym) s := hstep
        have hreach1 : ReachE (addToDomain reg s sym).sort_hierarchy q p := hreach
        exact hprop q hq p hreach1

/-- C1 (amended): on an acyclic hierarchy in which the extended sort and all
of its ancestors are discrete sorts, extend(c) terminates, the sort contains
the constant, and every member of its inclusion closure contains the
constant. An Interval ancestor breaks the original claim: its extend is a
no-op, so the constant neither registers in it nor propagates past it. -/
theorem extend_propagates (reg : Registry) (s : String) (sym : PyVal)
    (hA : Acyclic reg.sort_hierarchy) (hD : AllAncDiscrete reg s) :
    ∃ fuel reg2, extendFuel fuel reg s sym = some reg2 ∧
      sortContains reg2 s (.constantSym sym) = true ∧
      ∃ n res, inclusionClosureFuel reg2 n [] [s] = some res ∧
        ∀ A, A ∈ res → sortContains reg2 A (.constantSym sym) = true := by
  obtain ⟨rank, hrank⟩ := hA
  obtain ⟨reg2, hext, hle, hprop⟩ :=
    extendFuel_spec rank sym (rank s + 1) reg s hrank hD (Nat.lt_succ_self _)
  have hedg : reg2.sort_hierarchy = reg.sort_hierarchy := hle.1
  have hrank2 : ∀ a b, parentStep reg2.sort_hierarchy a b → rank b < rank a := by
    rw [hedg]
    exact hrank
  obtain ⟨res, hres⟩ := inclusionClosureFuel_terminates reg2 rank hrank2
    (frontierMeasure reg2.sort_hierarchy.length rank [s]) [] [s] (le_refl _)
  refine ⟨rank s + 1, reg2, hext, hprop s Relation.ReflTransGen.refl, _, res, hres, ?_⟩
  intro A hA2
  have hr : ReachE reg2.sort_hierarchy s A :=
    (inclusionClosure_mem_iff reg2 _ s res hres A).mp hA2
  have hr' : ReachE reg.sort_hierarchy s A := by rw [← hedg]; exact hr
  exact hprop A hr'

/-- Enumeration of ancestry in the two-sort chain registry. -/
lemma regChain_reach (p q : String) (h : ReachE regChain.sort_hierarchy p q) :
    q = p ∨ (p = "s" ∧ q = "t") := by
  induction h with
  | refl => exact Or.inl rfl
  | tail hab hbc ih =>
    rename_i b c
    have hm := parentStep_mem_edges _ _ _ hbc
    have he : (b, c) = ("s", "t") := by simpa [regChain] using hm
    have hb : b = "s" := congrArg Prod.fst he
    have hc2 : c = "t" := congrArg Prod.snd he
    subst hb
    subst hc2
    rcases ih with rfl | ⟨hp, hbt⟩
    · exact Or.inr ⟨rfl, rfl⟩
    · exact absurd hbt (by decide)

/-- The chain registry is discrete everywhere above s. -/
lemma regChain_allDiscrete : AllAncDiscrete regChain "s" := by
  intro p hp
  rcases regChain_reach "s" p hp with rfl | ⟨_, rfl⟩
  · exact ⟨[], false, rfl⟩
  · exact ⟨[], false, rfl⟩

/-- Witness for extend_propagates on the concrete discrete two-sort chain. -/
theorem extend_propagates_witness :
    ∃ fuel reg2, extendFuel fuel regChain "s" (.int 7) = some reg2 ∧
      sortContains reg2 "s" (.constantSym (.int 7)) = true ∧
      ∃ n res, inclusionClosureFuel reg2 n [] ["s"] = some res ∧
        ∀ A, A ∈ res → sortContains reg2 A (.constantSym (.int 7)) = true :=
  extend_propagates regChain "s" (.int 7)
    ⟨fun n => if n = "s" then 1 else 0, by
      intro a b h
      have hm := parentStep_mem_edges _ _ _ h
      have he : (a, b) = ("s", "t") := by simpa [regChain] using hm
      have ha : a = "s" := congrArg Prod.fst he
      have hb : b = "t" := congrArg Prod.snd he
      subst ha
      subst hb
      decide⟩
    regChain_allDiscrete

/-- Concrete registry: a discrete sort s below an Interval ancestor a, which
itself sits below a discrete grandparent b. -/
def regIntervalMid : Registry :=
  ⟨[("s", "a"), ("a", "b")],
   [("s", .discrete [] false),
    ("a", .interval (intervalInit "a" .intFn (some (.int 0)) (some (.int 10)))),
    ("b", .discrete [] false)]⟩

/-- C1 counterexample: extend(5) on s succeeds, b belongs to the inclusion
closure of s and differs from s, yet b does not contain the constant —
Interval.extend is a no-op, so the insertion neither registers in the
Interval ancestor a nor propagates through it to b. -/
theorem extend_propagates_counterexample :
    (extendFuel 10 regIntervalMid "s" (.int 5)).map
      (fun r => (sortContains r "b" (.constantSym (.int 5)),
                 inclusionClosureFuel r 10 [] ["s"])) =
      some (false, some ["b", "a", "s"]) ∧ ("b" : String) ≠ "s" := by
  decide

/-- C9: Interval.extend is pass: for an interval sort in the registry,
extend returns the registry unchanged — no bound or domain changes, no
parent is touched, no exception is raised. -/
theorem interval_extend_noop (fuel : Nat) (reg : Registry) (name : String) (sym : PyVal)
    (d : IntervalData) (h : getSort reg name = some (.interval d)) :
    extendFuel (fuel + 1) reg name sym = some reg := by
  simp only [extendFuel, h]

/-- Witness for interval_extend_noop on a one-interval registry. -/
theorem interval_extend_noop_witness :
    extendFuel 1 (⟨[], [("N", .interval buildTheNaturals)]⟩ : Registry) "N" (.int 3) =
      some ⟨[], [("N", .interval buildTheNaturals)]⟩ :=
  interval_extend_noop 0 ⟨[], [("N", .interval buildTheNaturals)]⟩ "N" (.int 3)
    buildTheNaturals rfl

/-! Interval.contains and its ancestor-consistency check. -/

/-- Application of an encode function to a contains argument: a wrapped
constant object is neither a string nor a number, so Python int()/float()
raises TypeError there (only ValueError is caught by contains). -/
def encodeArg (enc : EncodeFn) (x : Arg) : Except PyErr PyVal :=
  match x with
  | .raw v => encodeVal enc v
  | .constantSym _ => .error .typeError

/-- Interval.cast on a contains argument: a wrapped constant is not a
string, so it reaches the encode function and raises TypeError. -/
def intervalCastArg (I : IntervalData) (x : Arg) : Except PyErr (Option PyVal) :=
  match x with
  | .raw v => intervalCastV I v
  | .constantSym _ => .error .typeError

/-- Cast used on each ancestor by the consistency loop of Interval.contains:
a discrete Sort.cast returns the canonical value when the domain holds it
and None otherwise, never raising; an Interval ancestor uses the fallible
Interval.cast. -/
def castOf (d : SortData) (x : Arg) : Except PyErr (Option PyVal) :=
  match d with
  | .discrete dom _ => .ok (if pyMem (unwrapArg x) dom then some (unwrapArg x) else none)
  | .interval i => intervalCastArg i x

/-- Ancestor cast resolved through the registry. -/
def castOfName (reg : Registry) (p : String) (x : Arg) : Option (Except PyErr (Option PyVal)) :=
  (getSort reg p).map (fun d => castOf d x)

/-- Worklist of the ancestor-consistency check in Interval.contains: pop an
ancestor and cast the argument under it; a ValueError becomes a fatal
LanguageError; a defined result disagreeing with the encoding y rejects
membership (SemanticError in raise mode, false otherwise); any other
exception propagates; otherwise the ancestor's parents join the frontier.
An empty frontier reduces to the bounds check on y. Fuel bounds the
iterations (the source loop diverges on a cyclic hierarchy); a failing
ancestor lookup is also none. -/
def containsLoop (reg : Registry) (x : Arg) (y : PyVal) (raises : Bool)
    (lo hi : Option PyVal) : Nat → List String → Option (Except PyErr Bool)
  | _, [] => some (isWithinBoundsB lo hi y)
  | 0, _ :: _ => none
  | fuel + 1, p :: rest =>
    match getSort reg p with
    | none => none
    | some d =>
      match castOf d x with
      | .error .valueError => some (.error .languageError)
      | .error e => some (.error e)
      | .ok none => containsLoop reg x y raises lo hi fuel (pushAll (parentsOf reg p) rest)
      | .ok (some z) =>
        if pyEq y z then containsLoop reg x y raises lo hi fuel (pushAll (parentsOf reg p) rest)
        else some (if raises then .error .semanticError else .ok false)

/-- Interval.contains: encode the argument (a ValueError rejects, as
SemanticError in raise mode), then run the ancestor-consistency worklist
seeded with the deduplicated set of direct parents, finally check bounds. -/
def intervalContains (reg : Registry) (iname : String) (x : Arg) (raises : Bool)
    (fuel : Nat) : Option (Except PyErr Bool) :=
  match getSort reg iname with
  | some (.interval I) =>
    match encodeArg I.encode x with
    | .error .valueError => some (if raises then .error .semanticError else .ok false)
    | .error e => some (.error e)
    | .ok y => containsLoop reg x y raises I.lower_bound I.upper_bound fuel
      (pushAll (parentsOf reg iname) [])
  | _ => none

/-- Ancestors examined by the consistency loop: the sorts reachable from
some direct parent of the interval. -/
def AncestorOf (reg : Registry) (iname p : String) : Prop :=
  ∃ q, q ∈ parentsOf reg iname ∧ ReachE reg.sort_hierarchy q p

lemma AncestorOf_step (reg : Registry) (iname p q : String)
    (h : AncestorOf reg iname p) (hs : parentStep reg.sort_hierarchy p q) :
    AncestorOf reg iname q := by
  obtain ⟨w, hw, hr⟩ := h
  exact ⟨w, hw, hr.tail hs⟩

/-- Fuel accounting for one worklist step. -/
lemma measure_step (reg : Registry) (rank : String → Nat)
    (hrank : ∀ a b, parentStep reg.sort_hierarchy a b → rank b < rank a)
    (p : String) (rest : List String) (fuel : Nat)
    (hm : frontierMeasure reg.sort_hierarchy.length rank (p :: rest) ≤ fuel + 1) :
    frontierMeasure reg.sort_hierarchy.length rank (pushAll (parentsOf reg p) rest) ≤ fuel := by
  have h1 := frontierMeasure_pushAll_le reg.sort_hierarchy.length rank
    (parentsE reg.sort_hierarchy p) rest
  have h2 := parents_weight_lt reg.sort_hierarchy rank hrank p
  rw [frontierMeasure_cons] at hm
  simp only [parentsOf]
  omega

/-- A nonempty frontier has positive measure. -/
lemma measure_pos (E : Nat) (rank : String → Nat) (p : String) (rest : List String) :
    1 ≤ frontierMeasure E rank (p :: rest) := by
  rw [frontierMeasure_cons]
  have := Nat.one_le_pow (rank p) (E + 1) (Nat.succ_pos _)
  unfold nameWeight
  omega

/-- Consistency loop, agreeing case: while the frontier holds only sorts of
a step-closed family whose casts neither fail nor produce a disagreeing
value, the loop drains the frontier and returns the bounds check. -/
lemma containsLoop_agree (reg : Registry) (x : Arg) (y : PyVal) (raises : Bool)
    (lo hi : Option PyVal) (rank : String → Nat)
    (hrank : ∀ a b, parentStep reg.sort_hierarchy a b → rank b < rank a)
    (S : String → Prop)
    (hSclosed : ∀ p q, S p → parentStep reg.sort_hierarchy p q → S q)
    (hfail : ∀ p, S p → ∃ r, castOfName reg p x = some (.ok r))
    (hagree : ∀ p z, S p → castOfName reg p x = some (.ok (some z)) → pyEq y z = true) :
    ∀ fuel frontier,
      frontierMeasure reg.sort_hierarchy.length rank frontier ≤ fuel →
      (∀ p, p ∈ frontier → S p) →
      containsLoop reg x y raises lo hi fuel frontier = some (isWithinBoundsB lo hi y) := by
  intro fuel
  induction fuel with
  | zero =>
    intro frontier hm hf
    cases frontier with
    | nil => rfl
    | cons p rest =>
      have := measure_pos reg.sort_hierarchy.length rank p rest
      omega
  | succ fuel ih =>
    intro frontier hm hf
    cases frontier with
    | nil => rfl
    | cons p rest =>
      have hSp := hf p (List.mem_cons_self _ _)
      obtain ⟨r, hr⟩ := hfail p hSp
      cases hg : getSort reg p with
      | none => rw [castOfName, hg] at hr; simp at hr
      | some d =>
        rw [castOfName, hg] at hr
        simp only [Option.map_some'] at hr
        injection hr with hr
        have hnext : ∀ q, q ∈ pushAll (parentsOf reg p) rest → S q := by
          intro q hq
          rcases (mem_pushAll q _ rest).mp hq with hq1 | hq2
          · exact hSclosed p q hSp hq1
          · exact hf q (List.mem_cons_of_mem _ hq2)
        have hmeas := measure_step reg rank hrank p rest fuel hm
        simp only [containsLoop, hg, hr]
        rcases r with _ | z
        · exact ih _ hmeas hnext
        · have hz : pyEq y z = true :=
            hagree p z hSp (by rw [castOfName, hg]; simp [hr])
          show (if pyEq y z = true then
              containsLoop reg x y raises lo hi fuel (pushAll (parentsOf reg p) rest)
            else some (if raises = true then Except.error PyErr.semanticError
              else Except.ok false)) = some (isWithinBoundsB lo hi y)
          rw [if_pos hz]
          exact ih _ hmeas hnext

/-- Consistency loop, disagreeing case: if some sort reachable from the
frontier casts to a defined value disagreeing with y, and no reachable cast
fails, the loop rejects the membership. -/
lemma containsLoop_disagree (reg : Registry) (x : Arg) (y : PyVal) (raises : Bool)
    (lo hi : Option PyVal) (rank : String → Nat)
    (hrank : ∀ a b, parentStep reg.sort_hierarchy a b → rank b < rank a)
    (S : String → Prop)
    (hSclosed : ∀ p q, S p → parentStep reg.sort_hierarchy p q → S q)
    (hfail : ∀ p, S p → ∃ r, castOfName reg p x = some (.ok r)) :
    ∀ fuel frontier,
      frontierMeasure reg.sort_hierarchy.length rank frontier ≤ fuel →
      (∀ p, p ∈ frontier → S p) →
      (∃ p w z, w ∈ frontier ∧ ReachE reg.sort_hierarchy w p ∧
        castOfName reg p x = some (.ok (some z)) ∧ pyEq y z = false) →
      containsLoop reg x y raises lo hi fuel frontier =
        some (if raises then .error .semanticError else .ok false) := by
  intro fuel
  induction fuel with
  | zero =>
    intro frontier hm hf hd
    obtain ⟨p, w, z, hw, _, _, _⟩ := hd
    cases frontier with
    | nil => exact absurd hw (List.not_mem_nil w)
    | cons p0 rest =>
      have := measure_pos reg.sort_hierarchy.length rank p0 rest
      omega
  | succ fuel ih =>
    intro frontier hm hf hd
    cases frontier with
    | nil =>
      obtain ⟨p, w, z, hw, _, _, _⟩ := hd
      exact absurd hw (List.not_mem_nil w)
    | cons p0 rest =>
      have hSp := hf p0 (List.mem_cons_self _ _)
      obtain ⟨r, hr⟩ := hfail p0 hSp
      cases hg : getSort reg p0 with
      | none => rw [castOfName, hg] at hr; simp at hr
      | some d =>
        rw [castOfName, hg] at hr
        simp only [Option.map_some'] at hr
        injection hr with hr
        have hnext : ∀ q, q ∈ pushAll (parentsOf reg p0) rest → S q := by
          intro q hq
          rcases (mem_pushAll q _ rest).mp hq with hq1 | hq2
          · exact hSclosed p0 q hSp hq1
          · exact hf q (List.mem_cons_of_mem _ hq2)
        have hmeas := measure_step reg rank hrank p0 rest fuel hm
        obtain ⟨p, w, z, hw, hreach, hcast, hne⟩ := hd
        have hcast0 : castOfName reg p0 x = some (.ok r) := by
          rw [castOfName, hg]
          simp [hr]
        have hinv : p ≠ p0 → ∃ p' w' z', w' ∈ pushAll (parentsOf reg p0) rest ∧
            ReachE reg.sort_hierarchy w' p' ∧
            castOfName reg p' x = some (.ok (some z')) ∧ pyEq y z' = false := by
          intro hne0
          rcases List.mem_cons.mp hw with rfl | hw'
          · rcases Relation.ReflTransGen.cases_head hreach with rfl | ⟨c, hstep, hreach'⟩
            · exact absurd rfl hne0
            · exact ⟨p, c, z, (mem_pushAll c _ rest).mpr (Or.inl hstep), hreach', hcast, hne⟩
          · exact ⟨p, w, z, (mem_pushAll w _ rest).mpr (Or.inr hw'), hreach, hcast, hne⟩
        simp only [containsLoop, hg, hr]
        rcases r with _ | z0
        · -- popped cast is undefined, so the disagreeing sort is elsewhere
          have hne0 : p ≠ p0 := by
            intro he
            rw [he, hcast0] at hcast
            simp at hcast
          exact ih _ hmeas hnext (hinv hne0)
        · show (if pyEq y z0 = true then
              containsLoop reg x y raises lo hi fuel (pushAll (parentsOf reg p0) rest)
            else some (if raises = true then Except.error PyErr.semanticError
              else Except.ok false)) =
            some (if raises = true then Except.error PyErr.semanticError else Except.ok false)
          by_cases hz : pyEq y z0 = true
          · rw [if_pos hz]
            have hne0 : p ≠ p0 := by
              intro he
              rw [he, hcast0] at hcast
              simp only [Option.some.injEq, Except.ok.injEq] at hcast
              rw [← hcast] at hne
              rw [hz] at hne
              exact Bool.noConfusion hne
            exact ih _ hmeas hnext (hinv hne0)
          · rw [if_neg hz]

/-- Consistency loop, failing-cast case: if some sort reachable from the
frontier casts with a ValueError while every frontier-reachable cast either
raises ValueError or succeeds (agreeing with y when defined), the loop ends
in LanguageError, whatever the raise flag. -/
lemma containsLoop_langError (reg : Registry) (x : Arg) (y : PyVal) (raises : Bool)
    (lo hi : Option PyVal) (rank : String → Nat)
    (hrank : ∀ a b, parentStep reg.sort_hierarchy a b → rank b < rank a)
    (S : String → Prop)
    (hSclosed : ∀ p q, S p → parentStep reg.sort_hierarchy p q → S q)
    (hok : ∀ p, S p → ∃ r, castOfName reg p x = some r ∧
      (r = .error .valueError ∨ ∃ o, r = .ok o))
    (hagree : ∀ p z, S p → castOfName reg p x = some (.ok (some z)) → pyEq y z = true) :
    ∀ fuel frontier,
      frontierMeasure reg.sort_hierarchy.length rank frontier ≤ fuel →
      (∀ p, p ∈ frontier → S p) →
      (∃ p w, w ∈ frontier ∧ ReachE reg.sort_hierarchy w p ∧
        castOfName reg p x = some (.error .valueError)) →
      containsLoop reg x y raises lo hi fuel frontier = some (.error .languageError) := by
  intro fuel
  induction fuel with
  | zero =>
    intro frontier hm hf hd
    obtain ⟨p, w, hw, _, _⟩ := hd
    cases frontier with
    | nil => exact absurd hw (List.not_mem_nil w)
    | cons p0 rest =>
      have := measure_pos reg.sort_hierarchy.length rank p0 rest
      omega
  | succ fuel ih =>
    intro frontier hm hf hd
    cases frontier with
    | nil =>
      obtain ⟨p, w, hw, _, _⟩ := hd
      exact absurd hw (List.not_mem_nil w)
    | cons p0 rest =>
      have hSp := hf p0 (List.mem_cons_self _ _)
      obtain ⟨r, hr, hcase⟩ := hok p0 hSp
      cases hg : getSort reg p0 with
      | none => rw [castOfName, hg] at hr; simp at hr
      | some d =>
        rw [castOfName, hg] at hr
        simp only [Option.map_some'] at hr
        injection hr with hr
        have hcast0 : castOfName reg p0 x = some r := by
          rw [castOfName, hg]
          simp [hr]
        have hnext : ∀ q, q ∈ pushAll (parentsOf reg p0) rest → S q := by
          intro q hq
          rcases (mem_pushAll q _ rest).mp hq with hq1 | hq2
          · exact hSclosed p0 q hSp hq1
          · exact hf q (List.mem_cons_of_mem _ hq2)
        have hmeas := measure_step reg rank hrank p0 rest fuel hm
        obtain ⟨p, w, hw, hreach, hcast⟩ := hd
        have hinv : p ≠ p0 → ∃ p' w', w' ∈ pushAll (parentsOf reg p0) rest ∧
            ReachE reg.sort_hierarchy w' p' ∧
            castOfName reg p' x = some (.error .valueError) := by
          intro hne0
          rcases List.mem_cons.mp hw with rfl | hw'
          · rcases Relation.ReflTransGen.cases_head hreach with rfl | ⟨c, hstep, hreach'⟩
            · exact absurd rfl hne0
            · exact ⟨p, c, (mem_pushAll c _ rest).mpr (Or.inl hstep), hreach', hcast⟩
          · exact ⟨p, w, (mem_pushAll w _ rest).mpr (Or.inr hw'), hreach, hcast⟩
        rcases hcase with rfl | ⟨o, rfl⟩
        · simp only [containsLoop, hg, hr]
        · have hne0 : p ≠ p0 := by
            intro he
            rw [he, hcast0] at hcast
            simp at hcast
          simp only [containsLoop, hg, hr]
          rcases o with _ | z
          · exact ih _ hmeas hnext (hinv hne0)
          · have hz : pyEq y z = true := hagree p0 z hSp hcast0
            show (if pyEq y z = true then
                containsLoop reg x y raises lo hi fuel (pushAll (parentsOf reg p0) rest)
              else some (if raises = true then Except.error PyErr.semanticError
                else Except.ok false)) = some (Except.error PyErr.languageError)
            rw [if_pos hz]
            exact ih _ hmeas hnext (hinv hne0)

/-- C2: for an Interval with both bounds set, Interval.contains examines the
ancestors reachable through the transitive parents relation: given that the
argument encodes to y and no reachable ancestor's cast fails, a defined
ancestor value disagreeing with y makes contains return false (SemanticError
in raise mode); if every defined ancestor value agrees with y, the call
returns exactly is_within_bounds(y). If encoding itself fails with
ValueError, contains returns false (SemanticError in raise mode). -/
theorem interval_contains_spec (reg : Registry) (iname : String) (I : IntervalData)
    (x : Arg) (raises : Bool)
    (hI : getSort reg iname = some (.interval I))
    (_hlo : I.lower_bound.isSome = true) (_hhi : I.upper_bound.isSome = true)
    (hA : Acyclic reg.sort_hierarchy)
    (hfail : ∀ p, AncestorOf reg iname p → ∃ r, castOfName reg p x = some (.ok r)) :
    (encodeArg I.encode x = .error .valueError →
      ∀ fuel, intervalContains reg iname x raises fuel =
        some (if raises then .error .semanticError else .ok false)) ∧
    (∀ y, encodeArg I.encode x = .ok y →
      ((∃ p z, AncestorOf reg iname p ∧ castOfName reg p x = some (.ok (some z)) ∧
          pyEq y z = false) →
        ∃ fuel, intervalContains reg iname x raises fuel =
          some (if raises then .error .semanticError else .ok false)) ∧
      ((∀ p z, AncestorOf reg iname p → castOfName reg p x = some (.ok (some z)) →
          pyEq y z = true) →
        ∃ fuel, intervalContains reg iname x raises fuel =
          some (isWithinBoundsB I.lower_bound I.upper_bound y))) := by
  obtain ⟨rank, hrank⟩ := hA
  have hfront : ∀ p, p ∈ pushAll (parentsOf reg iname) [] → AncestorOf reg iname p := by
    intro p hp
    rcases (mem_pushAll p _ []).mp hp with h1 | h2
    · exact ⟨p, h1, Relation.ReflTransGen.refl⟩
    · exact absurd h2 (List.not_mem_nil p)
  constructor
  · intro henc fuel
    simp only [intervalContains, hI, henc]
  · intro y henc
    constructor
    · rintro ⟨p, z, hanc, hcast, hne⟩
      refine ⟨frontierMeasure reg.sort_hierarchy.length rank
        (pushAll (parentsOf reg iname) []), ?_⟩
      simp only [intervalContains, hI, henc]
      have hinv : ∃ p' w z', w ∈ pushAll (parentsOf reg iname) [] ∧
          ReachE reg.sort_hierarchy w p' ∧
          castOfName reg p' x = some (.ok (some z')) ∧ pyEq y z' = false := by
        obtain ⟨q, hq, hreach⟩ := hanc
        exact ⟨p, q, z, (mem_pushAll q _ []).mpr (Or.inl hq), hreach, hcast, hne⟩
      exact containsLoop_disagree reg x y raises I.lower_bound I.upper_bound rank hrank
        (AncestorOf reg iname) (fun a b ha hs => AncestorOf_step reg iname a b ha hs)
        hfail _ _ (le_refl _) hfront hinv
    · intro hagree
      refine ⟨frontierMeasure reg.sort_hierarchy.length rank
        (pushAll (parentsOf reg iname) []), ?_⟩
      simp only [intervalContains, hI, henc]
      exact containsLoop_agree reg x y raises I.lower_bound I.upper_bound rank hrank
        (AncestorOf reg iname) (fun a b ha hs => AncestorOf_step reg iname a b ha hs)
        hfail (fun a z ha hc => hagree a z ha hc) _ _ (le_refl _) hfront

/-- C3: if during the ancestor-consistency check of Interval.contains an
ancestor's cast itself raises (ValueError), a LanguageError propagates to
the caller regardless of the raise flag; the boolean mode never converts it
into a plain false. Hypotheses pin the scenario down: the argument encodes,
every reachable ancestor's cast either succeeds (agreeing with the encoding
when defined) or raises ValueError, and at least one raises. -/
theorem interval_contains_language_error (reg : Registry) (iname : String)
    (I : IntervalData) (x : Arg)
    (hI : getSort reg iname = some (.interval I))
    (hA : Acyclic reg.sort_hierarchy)
    (henc : ∃ y, encodeArg I.encode x = .ok y)
    (hok : ∀ p, AncestorOf reg iname p →
      ∃ r, castOfName reg p x = some r ∧ (r = .error .valueError ∨ ∃ o, r = .ok o))
    (hagree : ∀ y, encodeArg I.encode x = .ok y →
      ∀ p z, AncestorOf reg iname p → castOfName reg p x = some (.ok (some z)) →
        pyEq y z = true)
    (herr : ∃ p, AncestorOf reg iname p ∧
      castOfName reg p x = some (.error .valueError)) :
    ∀ raises, ∃ fuel,
      intervalContains reg iname x raises fuel = some (.error .languageError) := by
  obtain ⟨rank, hrank⟩ := hA
  obtain ⟨y, hy⟩ := henc
  have hfront : ∀ p, p ∈ pushAll (parentsOf reg iname) [] → AncestorOf reg iname p := by
    intro p hp
    rcases (mem_pushAll p _ []).mp hp with h1 | h2
    · exact ⟨p, h1, Relation.ReflTransGen.refl⟩
    · exact absurd h2 (List.not_mem_nil p)
  intro raises
  refine ⟨frontierMeasure reg.sort_hierarchy.length rank
    (pushAll (parentsOf reg iname) []), ?_⟩
  simp only [intervalContains, hI, hy]
  have hinv : ∃ p w, w ∈ pushAll (parentsOf reg iname) [] ∧
      ReachE reg.sort_hierarchy w p ∧
      castOfName reg p x = some (.error .valueError) := by
    obtain ⟨p, hanc, hcast⟩ := herr
    obtain ⟨q, hq, hreach⟩ := hanc
    exact ⟨p, q, (mem_pushAll q _ []).mpr (Or.inl hq), hreach, hcast⟩
  exact containsLoop_langError reg x y raises I.lower_bound I.upper_bound rank hrank
    (AncestorOf reg iname) (fun a b ha hs => AncestorOf_step reg iname a b ha hs)
    hok (hagree y hy) _ _ (le_refl _) hfront hinv

/-- Reachability collapses at a sort without parents. -/
lemma ReachE_nil_parents (edges : List (String × String)) (q p : String)
    (hq : parentsE edges q = []) (h : ReachE edges q p) : p = q := by
  rcases Relation.ReflTransGen.cases_head h with rfl | ⟨c, hstep, _⟩
  · rfl
  · have hc : c ∈ parentsE edges q := hstep
    rw [hq] at hc
    exact absurd hc (List.not_mem_nil c)

/-- Concrete registry: interval I over [0, 10] with a discrete parent P
whose domain holds the value 5. -/
def regUnderDiscrete : Registry :=
  ⟨[("I", "P")],
   [("I", .interval (intervalInit "I" .intFn (some (.int 0)) (some (.int 10)))),
    ("P", .discrete [.int 5] false)]⟩

lemma regUnderDiscrete_anc (p : String) (h : AncestorOf regUnderDiscrete "I" p) :
    p = "P" := by
  obtain ⟨q, hq, hr⟩ := h
  have hq' : q = "P" := by
    simpa [regUnderDiscrete, parentsOf, parentsE] using hq
  subst hq'
  exact ReachE_nil_parents _ _ _ (by decide) hr

/-- Witness for interval_contains_spec: contains(5) on the interval [0, 10]
under an agreeing discrete parent returns true. -/
theorem interval_contains_spec_witness :
    ∃ fuel, intervalContains regUnderDiscrete "I" (.raw (.int 5)) false fuel =
      some (.ok true) := by
  have hmain := interval_contains_spec regUnderDiscrete "I"
    (intervalInit "I" .intFn (some (.int 0)) (some (.int 10))) (.raw (.int 5)) false
    (by decide) rfl rfl
    ⟨fun n => if n = "I" then 1 else 0, by
      intro a b h
      have hm := parentStep_mem_edges _ _ _ h
      have he : (a, b) = ("I", "P") := by simpa [regUnderDiscrete] using hm
      have ha : a = "I" := congrArg Prod.fst he
      have hb : b = "P" := congrArg Prod.snd he
      subst ha
      subst hb
      decide⟩
    (fun p hp => by
      rw [regUnderDiscrete_anc p hp]
      exact ⟨some (.int 5), by decide⟩)
  obtain ⟨fuel, hf⟩ := (hmain.2 (.int 5) (by decide)).2 (fun p z hp hc => by
    rw [regUnderDiscrete_anc p hp] at hc
    have hval : castOfName regUnderDiscrete "P" (.raw (.int 5)) =
        some (.ok (some (.int 5))) := by decide
    rw [hval] at hc
    simp only [Option.some.injEq, Except.ok.injEq] at hc
    rw [← hc]
    decide)
  exact ⟨fuel, hf.trans (by decide)⟩

/-- Concrete registry: a float interval F over [0, 10] whose parent G is an
int interval with the tighter bounds [0, 3], so G.cast(5) raises. -/
def regTightParent : Registry :=
  ⟨[("F", "G")],
   [("F", .interval (intervalInit "F" .floatFn (some (.float 0)) (some (.float 10)))),
    ("G", .interval (intervalInit "G" .intFn (some (.int 0)) (some (.int 3))))]⟩

lemma regTightParent_anc (p : String) (h : AncestorOf regTightParent "F" p) :
    p = "G" := by
  obtain ⟨q, hq, hr⟩ := h
  have hq' : q = "G" := by
    simpa [regTightParent, parentsOf, parentsE] using hq
  subst hq'
  exact ReachE_nil_parents _ _ _ (by decide) hr

/-- Witness for interval_contains_language_error: contains(5) on F has its
ancestor G cast 5 out of G's bounds (a ValueError), so the boolean-mode call
surfaces LanguageError rather than false. -/
theorem interval_contains_language_error_witness :
    ∃ fuel, intervalContains regTightParent "F" (.raw (.int 5)) false fuel =
      some (.error .languageError) :=
  interval_contains_language_error regTightParent "F"
    (intervalInit "F" .floatFn (some (.float 0)) (some (.float 10))) (.raw (.int 5))
    (by decide)
    ⟨fun n => if n = "F" then 1 else 0, by
      intro a b h
      have hm := parentStep_mem_edges _ _ _ h
      have he : (a, b) = ("F", "G") := by simpa [regTightParent] using hm
      have ha : a = "F" := congrArg Prod.fst he
      have hb : b = "G" := congrArg Prod.snd he
      subst ha
      subst hb
      decide⟩
    ⟨.float 5, by decide⟩
    (fun p hp => by
      rw [regTightParent_anc p hp]
      exact ⟨.error .valueError, by decide, Or.inl rfl⟩)
    (fun y hy p z hp hc => by
      rw [regTightParent_anc p hp] at hc
      have hval : castOfName regTightParent "G" (.raw (.int 5)) =
          some (.error .valueError) := by decide
      rw [hval] at hc
      simp at hc)
    ⟨"G", ⟨"G", by decide, Relation.ReflTransGen.refl⟩, by decide⟩
    false

end Tarski
